import Mathlib

/-!
Verification of the CATAM root-finding repository.

The repository is a small Rust numerical toolkit: a root-search engine
(`binary` bisection and `fixed_point` iteration, in `src/root_search.rs`)
and a library of functional transforms (`identity`, `x_minus`, `frac`,
`newton_raphson`, in `src/functional.rs`).

Embedding choices:
- The scalar type `f64` is embedded as `ℚ` (exact arithmetic); the
  properties verified here are structural and algebraic, not statements
  about rounding.
- Rust `Result<T, E>` is embedded as `Except E T`; `Vec<f64>` as `List ℚ`;
  `usize` as `ℕ` (with `ℕ`-subtraction matching the empty-range behaviour
  of `1..max_iter` when `max_iter = 0`).
- The unbounded `loop` of `binary` is embedded with an explicit fuel bound
  `binaryFuel`, computed from the inputs; when `trunc_err > 0` the fuel is
  proved sufficient (`binaryLoop_total`), so the extra fuel-exhaustion
  branch of the embedding is unreachable in that case.
-/

namespace RootFinding

/-- Modelled from the spec: the sign-extraction function (the external
`num::signum` dependency, declared outside this repository), which the spec
describes as computing the sign (−1, 0, or +1) of the function value. -/
def sgn (x : ℚ) : ℚ :=
  if 0 < x then 1 else if x < 0 then -1 else 0

namespace functional

/-- Embedding of `functional::identity` (src/functional.rs, lines 56-58):
`Box::new(func)`, i.e. the wrapped function itself. -/
def identity (func : ℚ → ℚ) : ℚ → ℚ := func

/-- Embedding of `functional::x_minus` (src/functional.rs, lines 33-35):
`move |x| x - func(x)`. -/
def x_minus (func : ℚ → ℚ) : ℚ → ℚ :=
  fun x => x - func x

/-- Embedding of `functional::frac` (src/functional.rs, lines 79-85).
The test `*k == -2.0` happens at construction time, outside the closure. -/
def frac (func : ℚ → ℚ) (k : ℚ) : ℚ → ℚ :=
  if k = -2 then fun _ => 1 else fun x => func x / (2 + k)

/-- Embedding of `functional::newton_raphson` (src/functional.rs, lines
107-118). The test `deriv(x) == 0.0` happens inside the closure, at each
evaluation point. -/
def newton_raphson (func deriv : ℚ → ℚ) : ℚ → ℚ :=
  fun x => if deriv x = 0 then 1 else func x / deriv x

end functional

/-- C8: for every `func` and every input `x`, `identity(func)(x)` equals
`func(x)`: the identity transform returns a function behaviorally identical
to the function it wraps. -/
theorem identity_behavior (f : ℚ → ℚ) (x : ℚ) :
    functional.identity f x = f x := rfl

/-- C5: for every `func` and scalar `k`: if `k = -2` then `frac func k` is
the constant function `1` (the division is never formed), and otherwise
`frac func k x = func x / (2 + k)` for every `x`. -/
theorem frac_spec (f : ℚ → ℚ) (k x : ℚ) :
    (k = -2 → functional.frac f k x = 1) ∧
    (k ≠ -2 → functional.frac f k x = f x / (2 + k)) := by
  constructor <;> intro h <;> simp [functional.frac, h]

/-- Witness for C5 at concrete inputs. -/
theorem frac_spec_witness :
    functional.frac (fun x => x) (-2) 37 = 1 ∧
    functional.frac (fun x => x) 2 8 = 8 / (2 + 2) :=
  ⟨(frac_spec (fun x => x) (-2) 37).1 rfl,
   (frac_spec (fun x => x) 2 8).2 (by norm_num)⟩

/-- C6: for every `func`, `deriv` and input `x`, `newton_raphson func deriv x`
equals `func x / deriv x` when `deriv x ≠ 0` and equals `1` when
`deriv x = 0`; the zero test is made at each evaluation point `x` (the
branch in the definition is under the `fun x` binder, as in the source),
so no division by a zero value of `deriv` is ever formed. -/
theorem newton_raphson_spec (f d : ℚ → ℚ) (x : ℚ) :
    (d x = 0 → functional.newton_raphson f d x = 1) ∧
    (d x ≠ 0 → functional.newton_raphson f d x = f x / d x) := by
  constructor <;> intro h <;> simp [functional.newton_raphson, h]

/-- Witness for C6: with `deriv = id`, the same constructed function falls
back to `1` at `x = 0` and divides at `x = 2`, exhibiting the per-point
(lazy) test. -/
theorem newton_raphson_spec_witness :
    functional.newton_raphson (fun x => x + 1) (fun x => x) 0 = 1 ∧
    functional.newton_raphson (fun x => x + 1) (fun x => x) 2 = (2 + 1) / 2 :=
  ⟨(newton_raphson_spec (fun x => x + 1) (fun x => x) 0).1 rfl,
   (newton_raphson_spec (fun x => x + 1) (fun x => x) 2).2 (by norm_num)⟩

namespace root_search

/-- Loop body of `root_search::fixed_point` (src/root_search.rs, lines
117-129), written as a recursion on the remaining loop iterations (`fuel`
is how many more times `for _ in 1..max_iter` could run): on each pass
the current value is pushed onto the trace, `next = func(current)` is
computed, and either convergence returns `Ok((next, trace))` or the loop
continues; when the range is exhausted the final current value is pushed
and the trace returned as the error. -/
def fixedPointGo (func : ℚ → ℚ) (trunc_err : ℚ) :
    ℕ → ℚ → List ℚ → Except (List ℚ) (ℚ × List ℚ)
  | 0, current_val, func_vals => .error (func_vals ++ [current_val])
  | fuel + 1, current_val, func_vals =>
    let next_val := func current_val
    if |next_val - current_val| < trunc_err then
      .ok (next_val, func_vals ++ [current_val])
    else
      fixedPointGo func trunc_err fuel next_val (func_vals ++ [current_val])

/-- Embedding of `root_search::fixed_point` (src/root_search.rs, lines
111-130). The Rust range `1..max_iter` runs `max_iter - 1` times (and
`max_iter - 1` is `ℕ`-subtraction, matching the empty range at
`max_iter = 0`). -/
def fixed_point (func : ℚ → ℚ) (initial_val trunc_err : ℚ) (max_iter : ℕ) :
    Except (List ℚ) (ℚ × List ℚ) :=
  fixedPointGo func trunc_err (max_iter - 1) initial_val []

/-- Instrumented twin of `fixedPointGo` that also counts how many times
`func` is evaluated; used to state the resource bound of C4. -/
def fixedPointCountGo (func : ℚ → ℚ) (trunc_err : ℚ) :
    ℕ → ℚ → List ℚ → Except (List ℚ) (ℚ × List ℚ) × ℕ
  | 0, current_val, func_vals => (.error (func_vals ++ [current_val]), 0)
  | fuel + 1, current_val, func_vals =>
    let next_val := func current_val
    if |next_val - current_val| < trunc_err then
      (.ok (next_val, func_vals ++ [current_val]), 1)
    else
      let rest := fixedPointCountGo func trunc_err fuel next_val (func_vals ++ [current_val])
      (rest.1, rest.2 + 1)

/-- Instrumented twin of `fixed_point`: same result, plus the number of
evaluations of `func`. -/
def fixedPointCount (func : ℚ → ℚ) (initial_val trunc_err : ℚ) (max_iter : ℕ) :
    Except (List ℚ) (ℚ × List ℚ) × ℕ :=
  fixedPointCountGo func trunc_err (max_iter - 1) initial_val []

end root_search

/-- The forward orbit of `f` from `x`: `[x, f x, f (f x), ...]`, of the
given length. The traces produced by `fixed_point` are proved to be
orbits of `func` from `initial_val`. -/
def orbit (f : ℚ → ℚ) : ℚ → ℕ → List ℚ
  | _, 0 => []
  | x, n + 1 => x :: orbit f (f x) n

theorem orbit_length (f : ℚ → ℚ) : ∀ x n, (orbit f x n).length = n := by
  intro x n
  induction n generalizing x with
  | zero => rfl
  | succ n ih => simp [orbit, ih]

theorem orbit_ne_nil (f : ℚ → ℚ) (x : ℚ) (n : ℕ) (hn : 1 ≤ n) :
    orbit f x n ≠ [] := by
  cases n with
  | zero => omega
  | succ n => simp [orbit]

theorem orbit_succ (f : ℚ → ℚ) (x : ℚ) (n : ℕ) :
    orbit f x (n + 1) = x :: orbit f (f x) n := rfl

namespace root_search

theorem fixedPointGo_err (f : ℚ → ℚ) (tr : ℚ) :
    ∀ fuel cur vals trace, fixedPointGo f tr fuel cur vals = .error trace →
      trace = vals ++ orbit f cur (fuel + 1) := by
  intro fuel
  induction fuel with
  | zero =>
    intro cur vals trace h
    simp [fixedPointGo] at h
    simp [← h, orbit]
  | succ fuel ih =>
    intro cur vals trace h
    simp only [fixedPointGo] at h
    split at h
    · exact absurd h (by simp)
    · have := ih (f cur) (vals ++ [cur]) trace h
      simp [this, orbit_succ]

theorem fixedPointGo_ok (f : ℚ → ℚ) (tr : ℚ) :
    ∀ fuel cur vals est trace, fixedPointGo f tr fuel cur vals = .ok (est, trace) →
      ∃ k, 1 ≤ k ∧ k ≤ fuel ∧ trace = vals ++ orbit f cur k ∧
        est = f (trace.getLastD 0) := by
  intro fuel
  induction fuel with
  | zero =>
    intro cur vals est trace h
    exact absurd h (by simp [fixedPointGo])
  | succ fuel ih =>
    intro cur vals est trace h
    simp only [fixedPointGo] at h
    split at h
    · rw [Except.ok.injEq, Prod.mk.injEq] at h
      obtain ⟨h1, h2⟩ := h
      refine ⟨1, le_refl 1, by omega, ?_, ?_⟩
      · simp [← h2, orbit]
      · rw [← h2, List.getLastD_concat, ← h1]
    · obtain ⟨k, hk1, hk2, hk3, hk4⟩ := ih (f cur) (vals ++ [cur]) est trace h
      refine ⟨k + 1, by omega, by omega, ?_, hk4⟩
      simp [hk3, orbit_succ]

theorem fixedPointCountGo_fst (f : ℚ → ℚ) (tr : ℚ) :
    ∀ fuel cur vals,
      (fixedPointCountGo f tr fuel cur vals).1 = fixedPointGo f tr fuel cur vals := by
  intro fuel
  induction fuel with
  | zero => intro cur vals; rfl
  | succ fuel ih =>
    intro cur vals
    simp only [fixedPointCountGo, fixedPointGo]
    split
    · rfl
    · exact ih (f cur) (vals ++ [cur])

theorem fixedPointCountGo_le (f : ℚ → ℚ) (tr : ℚ) :
    ∀ fuel cur vals, (fixedPointCountGo f tr fuel cur vals).2 ≤ fuel := by
  intro fuel
  induction fuel with
  | zero => intro cur vals; exact le_refl 0
  | succ fuel ih =>
    intro cur vals
    simp only [fixedPointCountGo]
    split
    · omega
    · have := ih (f cur) (vals ++ [cur])
      simp only []
      omega

end root_search

/-- C1: for every `func`, `initial_val`, positive `trunc_err` and
`max_iter ≥ 1`: on success the trace is exactly the pre-convergence
iterates (the orbit of its own length, so it holds every value that was
the starting point of an iteration), the converged estimate is returned
separately as `func` of the last trace entry and is not appended, and the
trace length lies in `[0, max_iter - 1]` (in fact in `[1, max_iter - 1]`);
on failure the trace has length exactly `max_iter`, the final current
value having been appended before failing. -/
theorem fixed_point_trace_shape (f : ℚ → ℚ) (iv tr : ℚ) (m : ℕ)
    (_htr : 0 < tr) (hm : 1 ≤ m) :
    (∀ est trace, root_search.fixed_point f iv tr m = .ok (est, trace) →
      1 ≤ trace.length ∧ trace.length ≤ m - 1 ∧
      trace = orbit f iv trace.length ∧ est = f (trace.getLastD 0)) ∧
    (∀ trace, root_search.fixed_point f iv tr m = .error trace →
      trace.length = m ∧ trace = orbit f iv m) := by
  constructor
  · intro est trace h
    obtain ⟨k, hk1, hk2, hk3, hk4⟩ := root_search.fixedPointGo_ok f tr (m - 1) iv [] est trace h
    have hlen : trace.length = k := by simp [hk3, orbit_length]
    refine ⟨by omega, by omega, ?_, hk4⟩
    rw [hlen]
    simpa using hk3
  · intro trace h
    have := root_search.fixedPointGo_err f tr (m - 1) iv [] trace h
    have hm1 : m - 1 + 1 = m := by omega
    rw [hm1] at this
    simp only [List.nil_append] at this
    exact ⟨by simp [this, orbit_length], this⟩

/-- Witness for C1 at `func = id`, `initial_val = 0`, `trunc_err = 1`,
`max_iter = 3`; the first iteration converges immediately. -/
theorem fixed_point_trace_shape_witness :
    0 < (1 : ℚ) ∧ 1 ≤ 3 ∧
    (∀ est trace,
      root_search.fixed_point (fun x => x) 0 1 3 = .ok (est, trace) →
      1 ≤ trace.length ∧ trace.length ≤ 3 - 1 ∧
      trace = orbit (fun x => x) 0 trace.length ∧
      est = (fun x => x) (trace.getLastD 0)) ∧
    (∀ trace, root_search.fixed_point (fun x => x) 0 1 3 = .error trace →
      trace.length = 3 ∧ trace = orbit (fun x => x) 0 3) :=
  ⟨by norm_num, by omega,
   (fixed_point_trace_shape (fun x => x) 0 1 3 (by norm_num) (by omega)).1,
   (fixed_point_trace_shape (fun x => x) 0 1 3 (by norm_num) (by omega)).2⟩

/-- C9: the trace returned by `fixed_point` (success or failure) is the
orbit of `func` from `initial_val`: its first element is `initial_val`,
each later element is `func` of the previous one (this is what
`trace = orbit func initial_val trace.length` says), the trace is never
empty, and on success the returned estimate is `func` of the last trace
element. -/
theorem fixed_point_trace_is_orbit (f : ℚ → ℚ) (iv tr : ℚ) (m : ℕ) :
    (∀ est trace, root_search.fixed_point f iv tr m = .ok (est, trace) →
      trace ≠ [] ∧ trace = orbit f iv trace.length ∧
      est = f (trace.getLastD 0)) ∧
    (∀ trace, root_search.fixed_point f iv tr m = .error trace →
      trace ≠ [] ∧ trace = orbit f iv trace.length) := by
  constructor
  · intro est trace h
    obtain ⟨k, hk1, hk2, hk3, hk4⟩ := root_search.fixedPointGo_ok f tr (m - 1) iv [] est trace h
    have hlen : trace.length = k := by simp [hk3, orbit_length]
    have htr : trace = orbit f iv trace.length := by rw [hlen]; simpa using hk3
    refine ⟨?_, htr, hk4⟩
    rw [htr, hlen]
    exact orbit_ne_nil f iv k hk1
  · intro trace h
    have := root_search.fixedPointGo_err f tr (m - 1) iv [] trace h
    simp only [List.nil_append] at this
    have hlen : trace.length = m - 1 + 1 := by simp [this, orbit_length]
    refine ⟨?_, by rw [hlen]; exact this⟩
    rw [this]
    exact orbit_ne_nil f iv (m - 1 + 1) (by omega)

/-- Witness for C9 at `func = id`, `initial_val = 0`, `trunc_err = 1`,
`max_iter = 3` (its hypotheses are the equations naming the results). -/
theorem fixed_point_trace_is_orbit_witness :
    [(0 : ℚ)] ≠ [] ∧ [(0 : ℚ)] = orbit (fun x => x) 0 [(0 : ℚ)].length ∧
    (0 : ℚ) = (fun x => x) ([(0 : ℚ)].getLastD 0) :=
  (fixed_point_trace_is_orbit (fun x => x) 0 1 3).1 0 [0]
    (by simp [root_search.fixed_point, root_search.fixedPointGo])

/-- C4: `fixed_point` always terminates with a success or failure value
(it is a total function of this development), and the instrumented twin
`fixedPointCount`, which computes the very same result, evaluates `func`
at most `max_iter` times (in fact at most `max_iter - 1`). -/
theorem fixed_point_terminates (f : ℚ → ℚ) (iv tr : ℚ) (m : ℕ) :
    (root_search.fixedPointCount f iv tr m).1 = root_search.fixed_point f iv tr m ∧
    (root_search.fixedPointCount f iv tr m).2 ≤ m := by
  refine ⟨root_search.fixedPointCountGo_fst f tr (m - 1) iv [], ?_⟩
  have := root_search.fixedPointCountGo_le f tr (m - 1) iv []
  calc (root_search.fixedPointCount f iv tr m).2 ≤ m - 1 := this
    _ ≤ m := by omega

namespace root_search

/-- The fixed error message of `binary` (src/root_search.rs, line 63). -/
def noSignChangeMsg : String := "Error: no sign change at endpoints!"

/-- Marker for the fuel-exhaustion branch that totalises the embedding of
the unbounded `loop`; proved unreachable when `trunc_err > 0`
(`binaryLoop_total`). -/
def fuelExhaustedMsg : String := "bisection loop ran out of fuel"

/-- The `loop` of `root_search::binary` (src/root_search.rs, lines 66-79),
as a recursion on an explicit fuel bound. `fsgn` is the composed
`func_sgn = compose_fn!(func => signum)`; the state is the mutable
`start`, `end` and `start_val` of the source (`end_val` is not used inside
the loop). -/
def binaryLoop (fsgn : ℚ → ℚ) (trunc_err : ℚ) :
    ℕ → ℚ → ℚ → ℚ → Option ℚ
  | 0, _, _, _ => none
  | fuel + 1, start, endp, start_val =>
    let midpoint := (endp + start) / 2
    let test_val := fsgn midpoint
    if test_val = 0 ∨ endp - start < trunc_err then
      some midpoint
    else if test_val * start_val > 0 then
      binaryLoop fsgn trunc_err fuel midpoint endp test_val
    else
      binaryLoop fsgn trunc_err fuel start midpoint start_val

/-- Fuel bound for `binaryLoop`: enough halvings to bring the interval
width below `trunc_err` (proved in `binaryFuel_spec`). -/
def binaryFuel (start endp trunc_err : ℚ) : ℕ :=
  (⌈(endp - start) / trunc_err⌉).toNat + 1

/-- Embedding of `root_search::binary` (src/root_search.rs, lines 44-82).
The source's `let` bindings (`func_sgn`, `start`, `end`, `start_val`,
`end_val`) are inlined; the guard order (zero at `start`, zero at `end`,
same sign, then the loop) is that of the source. -/
def binary (func : ℚ → ℚ) (domain : ℚ × ℚ) (trunc_err : ℚ) :
    Except String ℚ :=
  if sgn (func domain.1) = 0 then .ok domain.1
  else if sgn (func domain.2) = 0 then .ok domain.2
  else if sgn (func domain.1) * sgn (func domain.2) > 0 then .error noSignChangeMsg
  else
    match binaryLoop (fun x => sgn (func x)) trunc_err
        (binaryFuel domain.1 domain.2 trunc_err) domain.1 domain.2
        (sgn (func domain.1)) with
    | some val => .ok val
    | none => .error fuelExhaustedMsg

theorem sign_transfer {e s t : ℚ} (he : e * s < 0) (ht : t * s > 0) :
    e * t < 0 := by
  rcases mul_pos_iff.mp ht with ⟨ht1, hs1⟩ | ⟨ht1, hs1⟩
  · rcases mul_neg_iff.mp he with ⟨he1, hs2⟩ | ⟨he1, hs2⟩
    · linarith
    · exact mul_neg_of_neg_of_pos he1 ht1
  · rcases mul_neg_iff.mp he with ⟨he1, hs2⟩ | ⟨he1, hs2⟩
    · exact mul_neg_of_pos_of_neg he1 ht1
    · linarith

/-- Soundness of the bisection loop, carrying its invariant: `start_val`
caches the sign at `start` and the sign at `end` is strictly opposite to
it. On `some r`, `r` is the midpoint of the loop's final interval
`(p, q)`, nested inside the initial one, and either the sign at `r` is
zero or that final interval has width below `trunc_err` AND still
brackets a sign change (signs at `p` and `q` strictly opposite). -/
theorem binaryLoop_sound (fsgn : ℚ → ℚ) (tr : ℚ) :
    ∀ fuel start endp sv r, start ≤ endp →
      fsgn start = sv → sv ≠ 0 → fsgn endp * sv < 0 →
      binaryLoop fsgn tr fuel start endp sv = some r →
      ∃ p q, start ≤ p ∧ p ≤ q ∧ q ≤ endp ∧ r = (q + p) / 2 ∧
        (fsgn r = 0 ∨ (q - p < tr ∧ fsgn p * fsgn q < 0)) := by
  intro fuel
  induction fuel with
  | zero =>
    intro start endp sv r _ _ _ _ h
    exact absurd h (by simp [binaryLoop])
  | succ fuel ih =>
    intro start endp sv r hle hsv hsv0 hopp h
    simp only [binaryLoop] at h
    have hms : start ≤ (endp + start) / 2 := by linarith
    have hme : (endp + start) / 2 ≤ endp := by linarith
    split at h
    · rename_i hbrk
      obtain rfl := Option.some.inj h
      rcases hbrk with hz | hwid
      · exact ⟨start, endp, le_refl start, hle, le_refl endp, rfl, Or.inl hz⟩
      · refine ⟨start, endp, le_refl start, hle, le_refl endp, rfl, ?_⟩
        by_cases hz : fsgn ((endp + start) / 2) = 0
        · exact Or.inl hz
        · refine Or.inr ⟨hwid, ?_⟩
          rw [hsv]
          calc sv * fsgn endp = fsgn endp * sv := mul_comm _ _
            _ < 0 := hopp
    · rename_i hbrk
      push_neg at hbrk
      obtain ⟨hz, _⟩ := hbrk
      split at h
      · rename_i hdir
        have hmid0 : fsgn ((endp + start) / 2) ≠ 0 := hz
        have hopp2 : fsgn endp * fsgn ((endp + start) / 2) < 0 :=
          sign_transfer hopp hdir
        obtain ⟨p, q, hp, hpq, hq, hr, hdone⟩ :=
          ih _ _ _ r hme rfl hmid0 hopp2 h
        exact ⟨p, q, le_trans hms hp, hpq, hq, hr, hdone⟩
      · rename_i hdir
        have hopp2 : fsgn ((endp + start) / 2) * sv < 0 :=
          lt_of_le_of_ne (not_lt.mp hdir) (mul_ne_zero hz hsv0)
        obtain ⟨p, q, hp, hpq, hq, hr, hdone⟩ :=
          ih _ _ _ r hms hsv hsv0 hopp2 h
        exact ⟨p, q, hp, hpq, le_trans hq hme, hr, hdone⟩

theorem binaryLoop_total (fsgn : ℚ → ℚ) (tr : ℚ) :
    ∀ n fuel start endp sv, (endp - start) / 2 ^ n < tr → n < fuel →
      ∃ r, binaryLoop fsgn tr fuel start endp sv = some r := by
  intro n
  induction n with
  | zero =>
    intro fuel start endp sv hw hf
    obtain ⟨fuel, rfl⟩ : ∃ m, fuel = m + 1 := ⟨fuel - 1, by omega⟩
    simp only [pow_zero, div_one] at hw
    refine ⟨(endp + start) / 2, ?_⟩
    simp only [binaryLoop]
    rw [if_pos (Or.inr hw)]
  | succ n ih =>
    intro fuel start endp sv hw hf
    obtain ⟨fuel, rfl⟩ : ∃ m, fuel = m + 1 := ⟨fuel - 1, by omega⟩
    simp only [binaryLoop]
    by_cases hbrk : fsgn ((endp + start) / 2) = 0 ∨ endp - start < tr
    · exact ⟨(endp + start) / 2, by rw [if_pos hbrk]⟩
    · rw [if_neg hbrk]
      have hhalf : ∀ w : ℚ, w = (endp - start) / 2 → w / 2 ^ n < tr := by
        intro w hwdef
        rw [hwdef, div_div, ← pow_succ']
        exact hw
      by_cases hdir : fsgn ((endp + start) / 2) * sv > 0
      · rw [if_pos hdir]
        exact ih fuel _ _ _ (hhalf _ (by ring)) (by omega)
      · rw [if_neg hdir]
        exact ih fuel _ _ _ (hhalf _ (by ring)) (by omega)

theorem binaryFuel_spec (start endp tr : ℚ) (htr : 0 < tr) :
    ∃ n, n < binaryFuel start endp tr ∧ (endp - start) / 2 ^ n < tr := by
  set n := (⌈(endp - start) / tr⌉).toNat with hn
  refine ⟨n, by simp [binaryFuel, hn], ?_⟩
  have h2 : (0 : ℚ) < 2 ^ n := by positivity
  rw [div_lt_iff₀ h2]
  have hceil : (endp - start) / tr ≤ (n : ℚ) := by
    calc (endp - start) / tr ≤ (⌈(endp - start) / tr⌉ : ℚ) := Int.le_ceil _
      _ ≤ ((⌈(endp - start) / tr⌉.toNat : ℤ) : ℚ) := by
          exact_mod_cast Int.cast_le.mpr (Int.self_le_toNat _)
      _ = (n : ℚ) := by push_cast [hn]; ring
  have hpow : (n : ℚ) < 2 ^ n := by exact_mod_cast Nat.lt_two_pow n
  have : (endp - start) / tr < 2 ^ n := lt_of_le_of_lt hceil hpow
  calc endp - start = (endp - start) / tr * tr := by field_simp
    _ < 2 ^ n * tr := by
        apply mul_lt_mul_of_pos_right this htr
    _ = tr * 2 ^ n := by ring

end root_search

/-- C7: if the sign of `func` is exactly zero at `start`, `binary` returns
`start` immediately; otherwise if it is exactly zero at `end`, `binary`
returns `end` immediately — the exact endpoint, independent of
`trunc_err`. (The sign function is modelled from the spec, see `sgn`.) -/
theorem binary_endpoint_exact (f : ℚ → ℚ) (a b tr : ℚ) :
    (sgn (f a) = 0 → root_search.binary f (a, b) tr = .ok a) ∧
    (sgn (f a) ≠ 0 → sgn (f b) = 0 → root_search.binary f (a, b) tr = .ok b) := by
  constructor
  · intro hz
    simp [root_search.binary, hz]
  · intro ha hb
    simp [root_search.binary, ha, hb]

/-- Witness for C7: `id` vanishes at the left endpoint of `(0, 5)`;
`x - 5` is negative at `1` and vanishes at the right endpoint of `(1, 5)`. -/
theorem binary_endpoint_exact_witness :
    root_search.binary (fun x => x) (0, 5) 1 = .ok 0 ∧
    root_search.binary (fun x => x - 5) (1, 5) 1 = .ok 5 :=
  ⟨(binary_endpoint_exact (fun x => x) 0 5 1).1 (by norm_num [sgn]),
   (binary_endpoint_exact (fun x => x - 5) 1 5 1).2
     (by norm_num [sgn]) (by norm_num [sgn])⟩

/-- C3: `binary` returns the fixed no-sign-change failure message exactly
when the signs at the two endpoints have product strictly greater than
zero and neither endpoint sign is exactly zero; the check is a single
guard before the loop, never retried. (The sign function is modelled from
the spec, see `sgn`.) -/
theorem binary_no_sign_change_iff (f : ℚ → ℚ) (a b tr : ℚ) :
    root_search.binary f (a, b) tr = .error root_search.noSignChangeMsg ↔
      sgn (f a) * sgn (f b) > 0 ∧ sgn (f a) ≠ 0 ∧ sgn (f b) ≠ 0 := by
  by_cases ha : sgn (f a) = 0
  · simp [root_search.binary, ha]
  · by_cases hb : sgn (f b) = 0
    · simp [root_search.binary, ha, hb]
    · by_cases hp : sgn (f a) * sgn (f b) > 0
      · simp [root_search.binary, ha, hb, hp]
      · simp only [root_search.binary, if_neg ha, if_neg hb, if_neg hp]
        cases hloop : root_search.binaryLoop (fun x => sgn (f x)) tr
            (root_search.binaryFuel a b tr) a b (sgn (f a)) with
        | none =>
          simp only [hloop]
          constructor
          · intro h
            have := Except.error.inj h
            exact absurd this (by decide)
          · intro h
            exact absurd h.1 hp
        | some val =>
          simp only [hloop]
          constructor
          · intro h
            exact absurd h (by simp)
          · intro h
            exact absurd h.1 hp

/-- Witness for C3, in both directions: same-sign endpoints produce
exactly the no-sign-change error, and with a sign change the error does
not occur. -/
theorem binary_no_sign_change_iff_witness :
    root_search.binary (fun x => x) (1, 2) 1 = .error root_search.noSignChangeMsg ∧
    ¬root_search.binary (fun x => x) (-1, 2) 1 = .error root_search.noSignChangeMsg :=
  ⟨(binary_no_sign_change_iff (fun x => x) 1 2 1).mpr
     ⟨by norm_num [sgn], by norm_num [sgn], by norm_num [sgn]⟩,
   fun h => by
     have := (binary_no_sign_change_iff (fun x => x) (-1) 2 1).mp h
     revert this
     norm_num [sgn]⟩

/-- Counterexample to C2 as stated: the claim quantifies over every
domain `(a, b)` with a sign change and asserts `a ≤ r ≤ b`, but the code
does not require `a ≤ b` (spec §4.2). With the reversed domain `(1, -1)`
and `func = id` the signs at the endpoints are strictly opposite, yet
`binary` returns `0`, and `1 ≤ 0` is false. -/
theorem binary_bracketing_cex :
    sgn ((fun x : ℚ => x) 1) * sgn ((fun x : ℚ => x) (-1)) < 0 ∧
    (0 : ℚ) < 1 ∧
    root_search.binary (fun x => x) (1, -1) 1 = .ok 0 ∧
    ¬(1 : ℚ) ≤ 0 := by
  refine ⟨by norm_num [sgn], by norm_num, ?_, by norm_num⟩
  norm_num [root_search.binary, root_search.binaryLoop, root_search.binaryFuel, sgn]

/-- C2 (amended): for every domain `(a, b)` whose endpoint signs are
strictly opposite and every positive `trunc_err`, `binary` returns a
success value `r` with `min a b ≤ r ≤ max a b` (which is `a ≤ r ≤ b`
whenever `a ≤ b`), and either the sign of `func` at `r` is exactly zero
or `r` is the midpoint of the final bisection interval `(p, q)`: an
interval inside the domain hull whose signed width `q - p` (`end - start`
of the loop state) has shrunk below `trunc_err` and at whose endpoints
the signs of `func` are still strictly opposite — the sign-change
bracket the loop maintains, so the pair `(p, q)` is tied to the actual
computation and cannot be satisfied degenerately. -/
theorem binary_bracketing (f : ℚ → ℚ) (a b tr : ℚ)
    (hsign : sgn (f a) * sgn (f b) < 0) (htr : 0 < tr) :
    ∃ r, root_search.binary f (a, b) tr = .ok r ∧
      min a b ≤ r ∧ r ≤ max a b ∧
      (sgn (f r) = 0 ∨ ∃ p q, r = (q + p) / 2 ∧ q - p < tr ∧
        sgn (f p) * sgn (f q) < 0 ∧
        min a b ≤ p ∧ p ≤ max a b ∧ min a b ≤ q ∧ q ≤ max a b) := by
  have ha : sgn (f a) ≠ 0 := by
    intro h
    rw [h, zero_mul] at hsign
    exact absurd hsign (lt_irrefl 0)
  have hb : sgn (f b) ≠ 0 := by
    intro h
    rw [h, mul_zero] at hsign
    exact absurd hsign (lt_irrefl 0)
  have hprod : ¬sgn (f a) * sgn (f b) > 0 := by linarith
  obtain ⟨n, hn, hw⟩ := root_search.binaryFuel_spec a b tr htr
  obtain ⟨r, hr⟩ :=
    root_search.binaryLoop_total (fun x => sgn (f x)) tr n _ a b (sgn (f a)) hw hn
  have hbin : root_search.binary f (a, b) tr = .ok r := by
    simp only [root_search.binary, if_neg ha, if_neg hb, if_neg hprod, hr]
  rcases le_or_lt a b with hab | hab
  · obtain ⟨p, q, hp, hpq, hq, hrpq, hdone⟩ :=
      root_search.binaryLoop_sound (fun x => sgn (f x)) tr _ a b (sgn (f a)) r hab
        rfl ha (by rw [mul_comm]; exact hsign) hr
    have hmin : min a b = a := min_eq_left hab
    have hmax : max a b = b := max_eq_right hab
    have hrlo : p ≤ r := by rw [hrpq]; linarith
    have hrhi : r ≤ q := by rw [hrpq]; linarith
    refine ⟨r, hbin, by rw [hmin]; linarith, by rw [hmax]; linarith, ?_⟩
    rcases hdone with h0 | ⟨hwid, hbracket⟩
    · exact Or.inl h0
    · exact Or.inr ⟨p, q, hrpq, hwid, hbracket,
        by rw [hmin]; linarith, by rw [hmax]; linarith,
        by rw [hmin]; linarith, by rw [hmax]; linarith⟩
  · -- reversed domain: the width `b - a` is already negative, below
    -- `trunc_err`, so the loop breaks at its first midpoint; the final
    -- interval is the initial one, which brackets the sign change by
    -- hypothesis.
    have hK : root_search.binaryFuel a b tr = (⌈(b - a) / tr⌉).toNat + 1 := rfl
    rw [hK] at hr
    simp only [root_search.binaryLoop] at hr
    rw [if_pos (Or.inr (by linarith : b - a < tr))] at hr
    obtain rfl := Option.some.inj hr
    have hmin : min a b = b := min_eq_right (le_of_lt hab)
    have hmax : max a b = a := max_eq_left (le_of_lt hab)
    refine ⟨(b + a) / 2, hbin, by rw [hmin]; linarith, by rw [hmax]; linarith,
      Or.inr ⟨a, b, rfl, by linarith, hsign, by rw [hmin]; linarith, by rw [hmax],
        by rw [hmin], by rw [hmax]; linarith⟩⟩

/-- Witness for the amended C2 at `func = id`, domain `(-1, 2)`,
`trunc_err = 1`. -/
theorem binary_bracketing_witness :
    sgn ((fun x : ℚ => x) (-1)) * sgn ((fun x : ℚ => x) 2) < 0 ∧
    (0 : ℚ) < 1 ∧
    (∃ r, root_search.binary (fun x => x) (-1, 2) 1 = .ok r ∧
      min (-1 : ℚ) 2 ≤ r ∧ r ≤ max (-1 : ℚ) 2 ∧
      (sgn ((fun x : ℚ => x) r) = 0 ∨ ∃ p q, r = (q + p) / 2 ∧ q - p < 1 ∧
        sgn ((fun x : ℚ => x) p) * sgn ((fun x : ℚ => x) q) < 0 ∧
        min (-1 : ℚ) 2 ≤ p ∧ p ≤ max (-1 : ℚ) 2 ∧
        min (-1 : ℚ) 2 ≤ q ∧ q ≤ max (-1 : ℚ) 2)) :=
  ⟨by norm_num [sgn], by norm_num,
   binary_bracketing (fun x => x) (-1) 2 1 (by norm_num [sgn]) (by norm_num)⟩

/-- C10: with `max_iter = 1` the loop body never runs: `fixed_point`
fails with trace `[initial_val]`, and the result does not depend on
`func` at all (`func` is never evaluated). -/
theorem fixed_point_one_iter (f g : ℚ → ℚ) (iv tr : ℚ) :
    root_search.fixed_point f iv tr 1 = .error [iv] ∧
    root_search.fixed_point f iv tr 1 = root_search.fixed_point g iv tr 1 :=
  ⟨rfl, rfl⟩

end RootFinding
